import Mathlib

/-!
Shallow embedding of `chunking/recursive_doc_chunking.py`: a markdown
chunking pipeline that derives page ranges from a page map, segments a
markdown text into heading-delimited sections, resolves the starting page
of each section, and splits each section into token windows.

Python strings are modelled as lists of characters (`Str`), Python `None`
as `Option.none`, and raised exceptions as `Except.error` carrying the
exception message.  The indentation of the original source is preserved
faithfully: in `recursive_chunk` only the bindings of `chunk_text` and
`chunk_meta` lie inside the `for` loop, while the metadata writes and the
single `append` run after the loop on the bindings left by its final
iteration.
-/

/-- Python `str` modelled as a list of characters. -/
abbrev Str := List Char

/-- ASCII whitespace, as recognised by Python `str.split()` and the `re`
class `\s` on ASCII input: space, tab, newline, carriage return, vertical
tab and form feed. -/
def isPySpace (c : Char) : Bool :=
  c == ' ' || c == '\t' || c == '\n' || c == '\r' ||
    c == Char.ofNat 11 || c == Char.ofNat 12

/-- Python `text.split()`: maximal runs of non-whitespace characters, with
leading, trailing and repeated whitespace discarded. -/
def pyWords : Str → List Str
  | [] => []
  | c :: cs =>
    if isPySpace c then pyWords cs
    else
      match cs with
      | [] => [[c]]
      | c2 :: cs2 =>
        if isPySpace c2 then [c] :: pyWords (c2 :: cs2)
        else
          match pyWords (c2 :: cs2) with
          | [] => [[c]]
          | w :: ws2 => (c :: w) :: ws2

/-- Python `text.split()` on the string model. -/
def pySplit (cs : Str) : List Str := pyWords cs

/-- Python `' '.join(ts)`. -/
def joinSp : List Str → Str
  | [] => []
  | [t] => t
  | t :: ts => t ++ ' ' :: joinSp ts

/-- Python `s.strip()`: whitespace removed from both ends. -/
def pyStrip (cs : Str) : Str :=
  ((cs.dropWhile isPySpace).reverse.dropWhile isPySpace).reverse

/-- Python `s[a:b]` for non-negative bounds. -/
def pySlice (cs : Str) (a b : Nat) : Str := (cs.drop a).take (b - a)

/-- Python `int(...)` on a run of decimal digits. -/
def digitsToNat (ds : Str) : Nat :=
  ds.foldl (fun acc c => acc * 10 + (c.toNat - '0'.toNat)) 0

/-- Attempt to match the regex `Page (\d+) of (\d+)` anchored at the start
of `cs`; on success return `int(group(1))`.  Both `\d+` are greedy; a
shorter digit run can never rescue a failed match because a digit never
equals the following literal space, so the maximal run is the unique
candidate. -/
def matchPageAt (cs : Str) : Option Nat :=
  if ("Page ".data).isPrefixOf cs then
    let r1 := cs.drop ("Page ".data).length
    let d1 := r1.takeWhile Char.isDigit
    let r2 := r1.dropWhile Char.isDigit
    if d1 = [] then none
    else if (" of ".data).isPrefixOf r2 then
      let r3 := r2.drop (" of ".data).length
      let d2 := r3.takeWhile Char.isDigit
      if d2 = [] then none else some (digitsToNat d1)
    else none
  else none

/-- Python `re.search with the page pattern`: the match at the
leftmost position where the pattern matches, if any. -/
def searchPage : Str → Option Nat
  | [] => none
  | c :: cs =>
    match matchPageAt (c :: cs) with
    | some n => some n
    | none => searchPage cs

/-- One entry of the raw `page_map` input. -/
structure PageMapEntry where
  comment_tag_text : Str
  start_idx : Nat
  end_idx : Nat
deriving DecidableEq

/-- One derived page range, `page_num` being `None` when the tag text holds
no page marker. -/
structure PageRec where
  page_num : Option Nat
  start_idx : Nat
  end_idx : Nat
deriving DecidableEq

/-- `get_page_ranges`: build one `PageRec` per page-map entry, in order,
extracting the page number from the entry tag text.  The Python loop
appends to an initially empty list. -/
def get_page_ranges (page_map : List PageMapEntry) : List PageRec :=
  page_map.foldl
    (fun pages entry =>
      pages ++ [{ page_num := searchPage entry.comment_tag_text,
                  start_idx := entry.start_idx,
                  end_idx := entry.end_idx }])
    []

/-- A raw heading match: character offset of the first `#`, heading level,
and the untrimmed text captured by group 2. -/
abbrev RawHeading := Nat × Nat × Str

/-- Attempt to match `(#{1,6})\s+(.*)` anchored at the start of `cs`
(which the caller guarantees to be a line start).  Returns the level, the
raw group-2 capture, and the remainder of the string after the match.  A
run of more than six hashes cannot match: backtracking the bounded
quantifier always leaves a `#`, never whitespace, as the next character.
`\s+` is greedy and may cross newlines; `.*` then captures to the end of
the current line. -/
def matchHeadingAt (cs : Str) : Option (Nat × Str × Str) :=
  let hs := cs.takeWhile (· == '#')
  let r1 := cs.dropWhile (· == '#')
  if hs.length < 1 ∨ 6 < hs.length then none
  else
    let ws := r1.takeWhile isPySpace
    let r2 := r1.dropWhile isPySpace
    if ws.length = 0 then none
    else
      let g2 := r2.takeWhile (· != '\n')
      let r3 := r2.dropWhile (· != '\n')
      some (hs.length, g2, r3)

/-- `finditer` of the heading pattern with `re.MULTILINE`: scan left to
right, try the anchored match at every line-start position, and resume
after the end of each match.  The character preceding a match end is never
a newline, so scanning resumes off a line start.  `fuel` bounds the
recursion by the number of characters still to scan; every step consumes
at least one character, so `fuel = cs.length` never runs out. -/
def scanHeadings : Nat → Str → Nat → Bool → List RawHeading
  | 0, _, _, _ => []
  | _ + 1, [], _, _ => []
  | fuel + 1, c :: cs, p, atLineStart =>
    if atLineStart then
      match matchHeadingAt (c :: cs) with
      | some (lvl, g2, rest) =>
        (p, lvl, g2) :: scanHeadings fuel rest (p + ((c :: cs).length - rest.length)) false
      | none => scanHeadings fuel cs (p + 1) (c == '\n')
    else
      scanHeadings fuel cs (p + 1) (c == '\n')

/-- One parsed section. -/
structure SectionRec where
  level : Nat
  heading : Str
  start_idx : Nat
  end_idx : Nat
deriving DecidableEq

/-- The second loop of `get_sections`: attach to each heading match the
start of the next match as its end index, and the document length to the
last. -/
def attachEnds (docLen : Nat) : List RawHeading → List SectionRec
  | [] => []
  | m :: rest =>
    { level := m.2.1,
      heading := pyStrip m.2.2,
      start_idx := m.1,
      end_idx := match rest with
                 | [] => docLen
                 | m2 :: _ => m2.1 } :: attachEnds docLen rest

/-- `get_sections`: parse the markdown for ATX headings of level 1 to 6 and
return the induced contiguous sections. -/
def get_sections (markdown : Str) : List SectionRec :=
  attachEnds markdown.length (scanHeadings markdown.length markdown 0 true)

/-- `find_page_for_index`: the `page_num` of the first range whose
half-open interval contains `idx`; `None` when no range does. -/
def find_page_for_index (pages : List PageRec) (idx : Nat) : Option Nat :=
  match pages with
  | [] => none
  | page :: rest =>
    if page.start_idx ≤ idx ∧ idx < page.end_idx then page.page_num
    else find_page_for_index rest idx

/-- The section-level metadata built by `chunk_markdown`. -/
structure SectionMeta where
  section_heading : Str
  section_level : Nat
  page_num : Option Nat
  section_start_idx : Nat
  section_end_idx : Nat
deriving DecidableEq

/-- Chunk metadata: the section metadata plus the chunk-local token range. -/
structure ChunkMeta extends SectionMeta where
  chunk_start_token : Nat
  chunk_end_token : Nat
deriving DecidableEq

/-- One emitted chunk. -/
structure Chunk where
  content : Str
  meta : ChunkMeta
deriving DecidableEq

deriving instance DecidableEq for Except

/-- Python `range(0, stop, step)`: `ValueError` on a zero step, empty on a
negative step (the start is already at or below any non-negative stop),
and the multiples of `step` below `stop` otherwise. -/
def pyRange0 (stop : Nat) (step : Int) : Except String (List Nat) :=
  if step = 0 then Except.error "ValueError: range() arg 3 must not be zero"
  else if step < 0 then Except.ok []
  else Except.ok ((List.range ((stop + step.toNat - 1) / step.toNat)).map (fun k => k * step.toNat))

/-- `recursive_chunk`, exactly as indented in the source: the loop over
`range(0, len(tokens), n_tokens)` only rebinds `chunk_text` and
`chunk_meta`; the two metadata writes and the single `chunks.append` run
after the loop on the bindings left by its final iteration.  When the
range is empty those names were never bound, which raises
`UnboundLocalError`. -/
def recursive_chunk (text : Str) (meta : SectionMeta) (n_tokens : Int) :
    Except String (List Chunk) :=
  let tokens := pySplit text
  match pyRange0 tokens.length n_tokens with
  | Except.error e => Except.error e
  | Except.ok idxs =>
    match idxs.foldl
        (fun _ i => some (i, joinSp ((tokens.drop i).take n_tokens.toNat)))
        (none : Option (Nat × Str)) with
    | none => Except.error "UnboundLocalError: chunk_meta referenced before assignment"
    | some (i, chunk_text) =>
      Except.ok [{ content := chunk_text,
                   meta := { toSectionMeta := meta,
                             chunk_start_token := i,
                             chunk_end_token := i + (pySplit chunk_text).length } }]

/-- `chunk_markdown`: build the page ranges, segment into sections, and for
each section in order slice its text, resolve its starting page, build its
metadata and extend the chunk list with its chunks.  An exception raised
by `recursive_chunk` propagates and aborts the whole call. -/
def chunk_markdown (markdown : Str) (page_map : List PageMapEntry)
    (n_tokens : Int := 50) : Except String (List Chunk) :=
  let pages := get_page_ranges page_map
  let sections := get_sections markdown
  sections.foldlM
    (fun all_chunks s =>
      let section_text := pySlice markdown s.start_idx s.end_idx
      let page_num := find_page_for_index pages s.start_idx
      let meta : SectionMeta :=
        { section_heading := s.heading,
          section_level := s.level,
          page_num := page_num,
          section_start_idx := s.start_idx,
          section_end_idx := s.end_idx }
      match recursive_chunk section_text meta n_tokens with
      | Except.error e => Except.error e
      | Except.ok section_chunks => Except.ok (all_chunks ++ section_chunks))
    []

/-- `dummy_tokenizer`: word count of the text. -/
def dummy_tokenizer (text : Str) : Nat := (pySplit text).length

/-- The start index of the final window of a `windowLen`-token sequence cut
into `size`-token windows: the largest multiple of `size` below the token
count. -/
def lastWindowStart (tokenCount size : Nat) : Nat :=
  ((tokenCount + size - 1) / size - 1) * size

/-- The markdown text of testable-properties Scenario A. -/
def scenarioA_markdown : Str := "# H1\nfoo bar baz\n# H2\nqux".data

/-- The page map of testable-properties Scenario B. -/
def scenarioB_page_map : List PageMapEntry :=
  [{ comment_tag_text := "Page 1 of 2".data, start_idx := 0, end_idx := 10 },
   { comment_tag_text := "Page 2 of 2".data, start_idx := 10, end_idx := 20 }]

/-- A fixed section metadata record used in concrete evaluations. -/
def metaA : SectionMeta :=
  { section_heading := "H".data, section_level := 1, page_num := none,
    section_start_idx := 0, section_end_idx := 0 }

/-! ## Helper lemmas -/

/-- Unfolding `pyWords` past a leading whitespace character. -/
theorem pyWords_cons_space (c : Char) (cs : Str) (hc : isPySpace c = true) :
    pyWords (c :: cs) = pyWords cs := by
  rw [pyWords.eq_def]
  simp [hc]

/-- `pyWords` on a single non-whitespace character. -/
theorem pyWords_singleton (c : Char) (hc : isPySpace c = false) :
    pyWords [c] = [[c]] := by
  rw [pyWords.eq_def]
  simp [hc]

/-- Unfolding `pyWords` at a word end. -/
theorem pyWords_cons_cons_space (c c2 : Char) (cs2 : Str) (hc : isPySpace c = false)
    (hc2 : isPySpace c2 = true) :
    pyWords (c :: c2 :: cs2) = [c] :: pyWords (c2 :: cs2) := by
  rw [pyWords.eq_def]
  simp [hc, hc2]

/-- Unfolding `pyWords` inside a word when the remainder splits to nothing. -/
theorem pyWords_cons_cons_word_nil (c c2 : Char) (cs2 : Str) (hc : isPySpace c = false)
    (hc2 : isPySpace c2 = false) (h : pyWords (c2 :: cs2) = []) :
    pyWords (c :: c2 :: cs2) = [[c]] := by
  rw [pyWords.eq_def]
  simp [hc, hc2, h]

/-- Unfolding `pyWords` inside a word. -/
theorem pyWords_cons_cons_word_cons (c c2 : Char) (cs2 : Str) {w : Str} {ws2 : List Str}
    (hc : isPySpace c = false) (hc2 : isPySpace c2 = false)
    (h : pyWords (c2 :: cs2) = w :: ws2) :
    pyWords (c :: c2 :: cs2) = (c :: w) :: ws2 := by
  rw [pyWords.eq_def]
  simp [hc, hc2, h]

/-- Every word produced by `pyWords` is nonempty and free of whitespace. -/
theorem pyWords_sound (cs : Str) :
    ∀ w ∈ pyWords cs, w ≠ [] ∧ ∀ c ∈ w, isPySpace c = false := by
  induction cs with
  | nil => intro w hw; exact absurd hw (by simp [pyWords])
  | cons c cs ih =>
    intro w hw
    by_cases hc : isPySpace c
    · rw [pyWords_cons_space c cs hc] at hw
      exact ih w hw
    · rw [Bool.not_eq_true] at hc
      cases cs with
      | nil =>
        rw [pyWords_singleton c hc] at hw
        simp at hw
        subst hw
        exact ⟨by simp, by simp [hc]⟩
      | cons c2 cs2 =>
        by_cases hc2 : isPySpace c2
        · rw [pyWords_cons_cons_space c c2 cs2 hc hc2] at hw
          rcases List.mem_cons.mp hw with h1 | h2
          · subst h1; exact ⟨by simp, by simp [hc]⟩
          · exact ih w h2
        · rw [Bool.not_eq_true] at hc2
          cases hpw : pyWords (c2 :: cs2) with
          | nil =>
            rw [pyWords_cons_cons_word_nil c c2 cs2 hc hc2 hpw] at hw
            simp at hw
            subst hw
            exact ⟨by simp, by simp [hc]⟩
          | cons w1 ws1 =>
            rw [pyWords_cons_cons_word_cons c c2 cs2 hc hc2 hpw] at hw
            rcases List.mem_cons.mp hw with h1 | h2
            · subst h1
              have hw1 := ih w1 (by rw [hpw]; exact List.mem_cons_self w1 ws1)
              refine ⟨by simp, ?_⟩
              intro x hx
              rcases List.mem_cons.mp hx with h3 | h4
              · subst h3; exact hc
              · exact hw1.2 x h4
            · exact ih w (by rw [hpw]; exact List.mem_cons_of_mem w1 h2)

/-- A nonempty whitespace-free string is a single word. -/
theorem pyWords_word (t : Str) (ht : t ≠ []) (hns : ∀ c ∈ t, isPySpace c = false) :
    pyWords t = [t] := by
  induction t with
  | nil => exact absurd rfl ht
  | cons c t ih =>
    have hc : isPySpace c = false := hns c (by simp)
    cases t with
    | nil => exact pyWords_singleton c hc
    | cons c2 t2 =>
      have hc2 : isPySpace c2 = false := hns c2 (by simp)
      have ih2 := ih (by simp) (fun x hx => hns x (List.mem_cons_of_mem c hx))
      exact pyWords_cons_cons_word_cons c c2 t2 hc hc2 ih2

/-- Splitting a nonempty whitespace-free word followed by a space yields
the word and then the words of the remainder. -/
theorem pyWords_word_append (t rest : Str) (ht : t ≠ [])
    (hns : ∀ c ∈ t, isPySpace c = false) :
    pyWords (t ++ ' ' :: rest) = t :: pyWords rest := by
  induction t with
  | nil => exact absurd rfl ht
  | cons c t ih =>
    have hc : isPySpace c = false := hns c (by simp)
    have hsp : isPySpace ' ' = true := by decide
    cases t with
    | nil =>
      simp only [List.cons_append, List.nil_append]
      rw [pyWords_cons_cons_space c ' ' rest hc hsp, pyWords_cons_space ' ' rest hsp]
    | cons c2 t2 =>
      have hc2 : isPySpace c2 = false := hns c2 (by simp)
      have ih2 : pyWords (c2 :: (t2 ++ ' ' :: rest)) = (c2 :: t2) :: pyWords rest := by
        have := ih (by simp) (fun x hx => hns x (List.mem_cons_of_mem c hx))
        simpa using this
      simp only [List.cons_append]
      exact pyWords_cons_cons_word_cons c c2 (t2 ++ ' ' :: rest) hc hc2 ih2

/-- Rejoining with single spaces and resplitting recovers a list of
nonempty whitespace-free words. -/
theorem pySplit_joinSp (ts : List Str)
    (h : ∀ t ∈ ts, t ≠ [] ∧ ∀ c ∈ t, isPySpace c = false) :
    pySplit (joinSp ts) = ts := by
  induction ts with
  | nil => rfl
  | cons t ts ih =>
    cases ts with
    | nil => exact pyWords_word t (h t (by simp)).1 (h t (by simp)).2
    | cons t2 ts2 =>
      have hj : joinSp (t :: t2 :: ts2) = t ++ ' ' :: joinSp (t2 :: ts2) := rfl
      rw [pySplit, hj,
        pyWords_word_append t _ (h t (by simp)).1 (h t (by simp)).2]
      have := ih (fun x hx => h x (List.mem_cons_of_mem t hx))
      rw [pySplit] at this
      rw [this]

/-- A fold that overwrites its accumulator keeps only the final element. -/
theorem foldl_overwrite_concat {α β : Type} (f : α → β) (l : List α) (a : α)
    (init : Option β) :
    (l ++ [a]).foldl (fun _ x => some (f x)) init = some (f a) := by
  induction l generalizing init with
  | nil => rfl
  | cons b l ih =>
    rw [List.cons_append, List.foldl_cons]
    exact ih _

/-- A successful heading match consumes at least one character. -/
theorem matchHeadingAt_rest_lt {cs : Str} {lvl : Nat} {g2 rest : Str}
    (h : matchHeadingAt cs = some (lvl, g2, rest)) : rest.length < cs.length := by
  simp only [matchHeadingAt] at h
  split at h
  · exact absurd h (by simp)
  · next hhash =>
    split at h
    · exact absurd h (by simp)
    · next hws =>
      simp only [Option.some.injEq, Prod.mk.injEq] at h
      obtain ⟨hlvl, hg2, hrest⟩ := h
      have hlen : cs.length
          = (cs.takeWhile (· == '#')).length + (cs.dropWhile (· == '#')).length := by
        conv_lhs => rw [← List.takeWhile_append_dropWhile (p := (· == '#')) (l := cs)]
        exact List.length_append _ _
      have h2 : ((cs.dropWhile (· == '#')).dropWhile isPySpace).length
          ≤ (cs.dropWhile (· == '#')).length :=
        (List.dropWhile_sublist _).length_le
      have h3 : rest.length
          ≤ ((cs.dropWhile (· == '#')).dropWhile isPySpace).length := by
        rw [← hrest]
        exact (List.dropWhile_sublist _).length_le
      omega

/-- Every heading start emitted by the scanner lies in the scanned range. -/
theorem scanHeadings_mem_bounds :
    ∀ (fuel : Nat) (cs : Str) (p : Nat) (a : Bool),
      ∀ x ∈ scanHeadings fuel cs p a, p ≤ x.1 ∧ x.1 < p + cs.length := by
  intro fuel
  induction fuel with
  | zero => intro cs p a x hx; exact absurd hx (by simp [scanHeadings])
  | succ fuel ih =>
    intro cs p a x hx
    cases cs with
    | nil => exact absurd hx (by simp [scanHeadings])
    | cons c cs =>
      rw [scanHeadings] at hx
      by_cases ha : a
      · rw [if_pos ha] at hx
        cases hm : matchHeadingAt (c :: cs) with
        | none =>
          rw [hm] at hx
          have := ih cs (p + 1) (c == '\n') x hx
          simp only [List.length_cons]
          omega
        | some t =>
          obtain ⟨lvl, g2, rest⟩ := t
          rw [hm] at hx
          rcases List.mem_cons.mp hx with h1 | h2
          · subst h1; simp
          · have hb := ih rest (p + ((c :: cs).length - rest.length)) false x h2
            have hlt := matchHeadingAt_rest_lt hm
            simp only [List.length_cons] at *
            omega
      · rw [if_neg ha] at hx
        have := ih cs (p + 1) (c == '\n') x hx
        simp only [List.length_cons]
        omega

/-- Heading starts are emitted in strictly increasing order. -/
theorem scanHeadings_chain :
    ∀ (fuel : Nat) (cs : Str) (p : Nat) (a : Bool),
      List.Chain' (fun x y : RawHeading => x.1 < y.1) (scanHeadings fuel cs p a) := by
  intro fuel
  induction fuel with
  | zero => intro cs p a; simp [scanHeadings]
  | succ fuel ih =>
    intro cs p a
    cases cs with
    | nil => simp [scanHeadings]
    | cons c cs =>
      rw [scanHeadings]
      by_cases ha : a
      · rw [if_pos ha]
        cases hm : matchHeadingAt (c :: cs) with
        | none => exact ih cs (p + 1) (c == '\n')
        | some t =>
          obtain ⟨lvl, g2, rest⟩ := t
          refine List.chain'_cons'.mpr ⟨?_, ih rest _ false⟩
          intro y hy
          have hmem : y ∈ scanHeadings fuel rest (p + ((c :: cs).length - rest.length)) false :=
            List.mem_of_mem_head? hy
          have hb := scanHeadings_mem_bounds fuel rest _ false y hmem
          have hlt := matchHeadingAt_rest_lt hm
          simp only [List.length_cons] at *
          omega
      · rw [if_neg ha]
        exact ih cs (p + 1) (c == '\n')

/-- `attachEnds` on the empty match list. -/
theorem attachEnds_nil (docLen : Nat) : attachEnds docLen [] = [] := rfl

/-- `attachEnds` on a single match: the section runs to the document end. -/
theorem attachEnds_singleton (docLen : Nat) (m : RawHeading) :
    attachEnds docLen [m]
      = [{ level := m.2.1, heading := pyStrip m.2.2, start_idx := m.1,
           end_idx := docLen }] := rfl

/-- `attachEnds` on two or more matches: the first section ends where the
second match starts. -/
theorem attachEnds_cons_cons (docLen : Nat) (m m2 : RawHeading) (ms : List RawHeading) :
    attachEnds docLen (m :: m2 :: ms)
      = { level := m.2.1, heading := pyStrip m.2.2, start_idx := m.1,
          end_idx := m2.1 } :: attachEnds docLen (m2 :: ms) := rfl

/-- The first section built from a nonempty match list starts at the first
match. -/
theorem attachEnds_head (docLen : Nat) (m : RawHeading) (ms : List RawHeading) :
    ∃ s, (attachEnds docLen (m :: ms)).head? = some s ∧ s.start_idx = m.1 := by
  cases ms with
  | nil => exact ⟨_, by rw [attachEnds_singleton]; rfl, rfl⟩
  | cons m2 ms2 => exact ⟨_, by rw [attachEnds_cons_cons]; rfl, rfl⟩

/-- Sections built from strictly increasing matches are strictly increasing
and contiguous. -/
theorem attachEnds_chain (docLen : Nat) :
    ∀ (ms : List RawHeading), List.Chain' (fun x y : RawHeading => x.1 < y.1) ms →
      List.Chain' (fun a b : SectionRec => a.start_idx < b.start_idx ∧ a.end_idx = b.start_idx)
        (attachEnds docLen ms)
  | [], _ => by simp [attachEnds_nil]
  | [m], _ => by simp [attachEnds_singleton]
  | m :: m2 :: ms, hch => by
    obtain ⟨h12, hch2⟩ := List.chain'_cons.mp hch
    rw [attachEnds_cons_cons]
    refine List.chain'_cons'.mpr ⟨?_, attachEnds_chain docLen (m2 :: ms) hch2⟩
    intro y hy
    obtain ⟨s, hs, hstart⟩ := attachEnds_head docLen m2 ms
    rw [hs] at hy
    simp only [Option.mem_def, Option.some.injEq] at hy
    subst hy
    exact ⟨by simpa [hstart] using h12, by simp [hstart]⟩

/-- The last section built by `attachEnds` ends at the document length. -/
theorem attachEnds_getLast (docLen : Nat) :
    ∀ (ms : List RawHeading) (s : SectionRec),
      (attachEnds docLen ms).getLast? = some s → s.end_idx = docLen
  | [], s, h => by simp [attachEnds_nil] at h
  | [m], s, h => by
    rw [attachEnds_singleton] at h
    simp only [List.getLast?_singleton, Option.some.injEq] at h
    rw [← h]
  | m :: m2 :: ms, s, h => by
    have h2 : (attachEnds docLen (m2 :: ms)).getLast? = some s := by
      cases ms with
      | nil =>
        rw [attachEnds_cons_cons, attachEnds_singleton, List.getLast?_cons_cons] at h
        rw [attachEnds_singleton]
        exact h
      | cons m3 ms3 =>
        rw [attachEnds_cons_cons, attachEnds_cons_cons, List.getLast?_cons_cons] at h
        rw [attachEnds_cons_cons]
        exact h
    exact attachEnds_getLast docLen (m2 :: ms) s h2

/-- Every section built from in-range, strictly increasing matches is
nonempty and ends within the document. -/
theorem attachEnds_mem (docLen : Nat) :
    ∀ (ms : List RawHeading),
      List.Chain' (fun x y : RawHeading => x.1 < y.1) ms →
      (∀ x ∈ ms, x.1 < docLen) →
      ∀ s ∈ attachEnds docLen ms, s.start_idx < s.end_idx ∧ s.end_idx ≤ docLen
  | [], _, _ => by simp [attachEnds_nil]
  | [m], _, hb => by
    intro s hs
    rw [attachEnds_singleton] at hs
    simp only [List.mem_singleton] at hs
    subst hs
    exact ⟨hb m (by simp), le_refl _⟩
  | m :: m2 :: ms, hch, hb => by
    intro s hs
    obtain ⟨h12, hch2⟩ := List.chain'_cons.mp hch
    rw [attachEnds_cons_cons] at hs
    rcases List.mem_cons.mp hs with h1 | h2
    · subst h1
      exact ⟨h12, le_of_lt (hb m2 (by simp))⟩
    · exact attachEnds_mem docLen (m2 :: ms) hch2
        (fun x hx => hb x (List.mem_cons_of_mem m hx)) s h2

/-- In a strictly increasing section chain, the head starts first. -/
theorem sections_chain_start_lt :
    ∀ (l : List SectionRec) (a : SectionRec),
      List.Chain' (fun a b : SectionRec => a.start_idx < b.start_idx ∧ a.end_idx = b.start_idx)
        (a :: l) →
      ∀ s ∈ l, a.start_idx < s.start_idx
  | [], a, _ => by simp
  | b :: t, a, hch => by
    intro s hs
    obtain ⟨hab, hch2⟩ := List.chain'_cons.mp hch
    rcases List.mem_cons.mp hs with h1 | h2
    · subst h1; exact hab.1
    · exact lt_trans hab.1 (sections_chain_start_lt t b hch2 s h2)

/-- A contiguous section chain whose last member ends at `L` covers exactly
the interval from the head start to `L`. -/
theorem sections_cover :
    ∀ (l : List SectionRec) (s0 : SectionRec) (L : Nat),
      l.head? = some s0 →
      List.Chain' (fun a b : SectionRec => a.start_idx < b.start_idx ∧ a.end_idx = b.start_idx) l →
      (∀ s, l.getLast? = some s → s.end_idx = L) →
      (∀ s ∈ l, s.start_idx < s.end_idx ∧ s.end_idx ≤ L) →
      ∀ k, (s0.start_idx ≤ k ∧ k < L) ↔ ∃ s ∈ l, s.start_idx ≤ k ∧ k < s.end_idx
  | [], s0, L, h0, _, _, _ => by simp at h0
  | [s1], s0, L, h0, _, hlast, hmem => by
    simp only [List.head?_cons, Option.some.injEq] at h0
    subst h0
    intro k
    have hL : s1.end_idx = L := hlast s1 (by simp)
    constructor
    · rintro ⟨hk1, hk2⟩
      exact ⟨s1, by simp, hk1, by omega⟩
    · rintro ⟨s, hs, hk1, hk2⟩
      simp only [List.mem_singleton] at hs
      subst hs
      have := hmem s (by simp)
      exact ⟨hk1, by omega⟩
  | s1 :: s2 :: t, s0, L, h0, hch, hlast, hmem => by
    simp only [List.head?_cons, Option.some.injEq] at h0
    subst h0
    intro k
    obtain ⟨h12, hch2⟩ := List.chain'_cons.mp hch
    have ih := sections_cover (s2 :: t) s2 L rfl hch2
      (fun s hs => hlast s (by rw [List.getLast?_cons_cons]; exact hs))
      (fun s hs => hmem s (List.mem_cons_of_mem s1 hs))
    constructor
    · rintro ⟨hk1, hk2⟩
      by_cases hlt : k < s1.end_idx
      · exact ⟨s1, by simp, hk1, hlt⟩
      · have hk3 : s2.start_idx ≤ k := by
          have := h12.2
          omega
        obtain ⟨s, hs, hp⟩ := (ih k).mp ⟨hk3, hk2⟩
        exact ⟨s, List.mem_cons_of_mem s1 hs, hp⟩
    · rintro ⟨s, hs, hk1, hk2⟩
      rcases List.mem_cons.mp hs with h1 | h2
      · subst h1
        exact ⟨hk1, lt_of_lt_of_le hk2 (hmem s (by simp)).2⟩
      · have hstart : s1.start_idx < s.start_idx := sections_chain_start_lt (s2 :: t) s1 hch s h2
        have hle := (hmem s (List.mem_cons_of_mem s1 h2)).2
        exact ⟨by omega, by omega⟩

/-- Folding appends of singletons builds the mapped list. -/
theorem foldl_append_singleton {α β : Type} (f : α → β) :
    ∀ (l : List α) (init : List β),
      l.foldl (fun acc e => acc ++ [f e]) init = init ++ l.map f := by
  intro l
  induction l with
  | nil => intro init; simp
  | cons a l ih =>
    intro init
    rw [List.foldl_cons, ih]
    simp

/-- `searchPage` finds no page number exactly when the anchored pattern
matches at no position. -/
theorem searchPage_none_iff :
    ∀ cs : Str, (searchPage cs = none ↔ ∀ k, matchPageAt (cs.drop k) = none) := by
  intro cs
  induction cs with
  | nil =>
    constructor
    · intro _ k
      rw [List.drop_nil]
      rfl
    · intro _
      rfl
  | cons c cs ih =>
    constructor
    · intro h k
      rw [searchPage] at h
      cases hm : matchPageAt (c :: cs) with
      | some n => rw [hm] at h; exact absurd h (by simp)
      | none =>
        rw [hm] at h
        cases k with
        | zero => exact hm
        | succ k2 => exact (ih.mp h) k2
    · intro h
      rw [searchPage]
      have h0 : matchPageAt (c :: cs) = none := h 0
      rw [h0]
      exact ih.mpr (fun k => h (k + 1))

/-- Binding an `Except` error short-circuits. -/
theorem except_bind_error {ε α β : Type} (e : ε) (f : α → Except ε β) :
    (Except.error e >>= f) = Except.error e := rfl

/-- On a text with at least one token and a positive window, the source as
written returns exactly one chunk, describing the final window. -/
theorem recursive_chunk_last_window_only (text : Str) (meta : SectionMeta) (n : Int)
    (hn : 0 < n) (ht : pySplit text ≠ []) :
    recursive_chunk text meta n = Except.ok [
      { content := joinSp (((pySplit text).drop
            (lastWindowStart (pySplit text).length n.toNat)).take n.toNat),
        meta := { toSectionMeta := meta,
                  chunk_start_token := lastWindowStart (pySplit text).length n.toNat,
                  chunk_end_token := lastWindowStart (pySplit text).length n.toNat
                    + (((pySplit text).drop
                        (lastWindowStart (pySplit text).length n.toNat)).take n.toNat).length } }] := by
  have hs : 0 < n.toNat := by omega
  have hT : 0 < (pySplit text).length := List.length_pos.mpr ht
  have hc1 : 0 < ((pySplit text).length + n.toNat - 1) / n.toNat :=
    (Nat.one_le_div_iff hs).mpr (by omega)
  obtain ⟨c2, hc2⟩ : ∃ c2, ((pySplit text).length + n.toNat - 1) / n.toNat = c2 + 1 :=
    ⟨((pySplit text).length + n.toNat - 1) / n.toNat - 1, by omega⟩
  have hlws : lastWindowStart (pySplit text).length n.toNat = c2 * n.toNat := by
    unfold lastWindowStart
    rw [hc2]
    simp
  have hr : pyRange0 (pySplit text).length n
      = Except.ok ((List.range (c2 + 1)).map (fun k => k * n.toNat)) := by
    unfold pyRange0
    rw [if_neg (by omega), if_neg (by omega), hc2]
  have hfold : ((List.range (c2 + 1)).map (fun k => k * n.toNat)).foldl
      (fun _ i => some (i, joinSp (((pySplit text).drop i).take n.toNat)))
      (none : Option (Nat × Str))
      = some (c2 * n.toNat, joinSp (((pySplit text).drop (c2 * n.toNat)).take n.toNat)) := by
    rw [List.range_succ, List.map_append]
    exact foldl_overwrite_concat
      (fun i => (i, joinSp (((pySplit text).drop i).take n.toNat))) _ _ _
  have hwin : pySplit (joinSp (((pySplit text).drop (c2 * n.toNat)).take n.toNat))
      = ((pySplit text).drop (c2 * n.toNat)).take n.toNat := by
    apply pySplit_joinSp
    intro t htm
    exact pyWords_sound text t (List.drop_subset _ _ (List.take_subset _ _ htm))
  simp only [recursive_chunk, hr, hfold, hwin, hlws]

/-- `foldlM` over `Except` unfolds one step. -/
theorem foldlM_cons_except {ε σ α : Type} (f : σ → α → Except ε σ) (b : σ) (a : α)
    (l : List α) :
    (a :: l).foldlM f b = f b a >>= fun b2 => l.foldlM f b2 := rfl

/-- A zero window makes `range` raise before any window is formed. -/
theorem recursive_chunk_zero (text : Str) (meta : SectionMeta) :
    recursive_chunk text meta 0
      = Except.error "ValueError: range() arg 3 must not be zero" := rfl

/-- A negative window yields an empty `range`, so the loop never binds its
locals and the dedented tail raises `UnboundLocalError`. -/
theorem recursive_chunk_neg (text : Str) (meta : SectionMeta) (n : Int) (hn : n < 0) :
    recursive_chunk text meta n
      = Except.error "UnboundLocalError: chunk_meta referenced before assignment" := by
  have hr : pyRange0 (pySplit text).length n = Except.ok [] := by
    unfold pyRange0
    rw [if_neg (by omega), if_pos hn]
  simp only [recursive_chunk, hr]
  rfl

/-- Sections of a markdown text are strictly increasing, contiguous, end at
the document length, and cover the interval from the first heading. -/
theorem sections_partition_of_scan (markdown : Str) :
    List.Chain' (fun a b : SectionRec => a.start_idx < b.start_idx ∧ a.end_idx = b.start_idx)
        (get_sections markdown)
    ∧ (∀ s, (get_sections markdown).getLast? = some s → s.end_idx = markdown.length)
    ∧ (∀ s0, (get_sections markdown).head? = some s0 →
        ∀ k, (s0.start_idx ≤ k ∧ k < markdown.length)
          ↔ ∃ s ∈ get_sections markdown, s.start_idx ≤ k ∧ k < s.end_idx) := by
  have hch := scanHeadings_chain markdown.length markdown 0 true
  have hb : ∀ x ∈ scanHeadings markdown.length markdown 0 true, x.1 < markdown.length := by
    intro x hx
    have := scanHeadings_mem_bounds markdown.length markdown 0 true x hx
    omega
  have hchain := attachEnds_chain markdown.length _ hch
  have hlast := attachEnds_getLast markdown.length (scanHeadings markdown.length markdown 0 true)
  have hmem := attachEnds_mem markdown.length _ hch hb
  exact ⟨hchain, hlast, fun s0 h0 k =>
    sections_cover (get_sections markdown) s0 markdown.length h0 hchain hlast hmem k⟩

/-! ## Claim theorems -/

/-- Claim C1: the claim expects `ceil(T / W)` chunks per section (and zero
chunks for an empty text), but the source as written emits exactly one
chunk for the three-token text at window two, and raises
`UnboundLocalError` on an empty token list.  This theorem evaluates the
code at those inputs. -/
theorem recursive_chunk_chunk_count_eval :
    (recursive_chunk "foo bar baz".data metaA 2).map List.length = Except.ok 1
    ∧ (recursive_chunk "foo bar baz".data metaA 2).map List.length ≠ Except.ok 2
    ∧ recursive_chunk [] metaA 2
        = Except.error "UnboundLocalError: chunk_meta referenced before assignment" := by
  decide

/-- Claim C2: the claim expects the chunk windows to concatenate back to
the full token sequence, but on the three-token text at window two the
single emitted chunk holds only the final token. -/
theorem recursive_chunk_concat_eval :
    (recursive_chunk "foo bar baz".data metaA 2).map
        (fun l => (l.map (fun c => pySplit c.content)).flatten)
      = Except.ok ["baz".data]
    ∧ pySplit "foo bar baz".data = ["foo".data, "bar".data, "baz".data]
    ∧ (["baz".data] : List Str) ≠ ["foo".data, "bar".data, "baz".data] := by
  decide

/-- Claim C3: in the literal source, for every text with at least one
token and every positive window, `recursive_chunk` returns exactly one
chunk whose content and token range describe the final window. -/
theorem recursive_chunk_single_chunk (text : Str) (meta : SectionMeta) (n : Int)
    (hn : 0 < n) (ht : pySplit text ≠ []) :
    recursive_chunk text meta n = Except.ok [
      { content := joinSp (((pySplit text).drop
            (lastWindowStart (pySplit text).length n.toNat)).take n.toNat),
        meta := { toSectionMeta := meta,
                  chunk_start_token := lastWindowStart (pySplit text).length n.toNat,
                  chunk_end_token := lastWindowStart (pySplit text).length n.toNat
                    + (((pySplit text).drop
                        (lastWindowStart (pySplit text).length n.toNat)).take n.toNat).length } }] :=
  recursive_chunk_last_window_only text meta n hn ht

/-- Witness for claim C3 at the three-token text with window two: the one
chunk is the last window. -/
theorem recursive_chunk_single_chunk_witness :
    (0 : Int) < 2 ∧ pySplit "a b c".data ≠ []
    ∧ recursive_chunk "a b c".data metaA 2
        = Except.ok [{ content := "c".data,
                       meta := { toSectionMeta := metaA,
                                 chunk_start_token := 2, chunk_end_token := 3 } }] := by
  refine ⟨by decide, by decide, ?_⟩
  rw [recursive_chunk_single_chunk "a b c".data metaA 2 (by decide) (by decide)]
  decide

/-- Claim C4 counterexample: with `window_size = 0` and a markdown text
with no headings, the pipeline does not fail at all (there is no
`InvalidConfiguration` check anywhere); it succeeds with an empty list. -/
theorem chunk_markdown_window_zero_no_failure :
    chunk_markdown [] [] 0 = Except.ok [] := by decide

/-- Claim C4 as amended: a non-positive window is never rejected up front.
With no sections the pipeline succeeds with an empty list; with at least
one section, a zero window propagates `ValueError` from `range` and a
negative window propagates `UnboundLocalError`, both raised inside
splitting of the first section. -/
theorem chunk_markdown_nonpositive_window (markdown : Str) (pm : List PageMapEntry)
    (n : Int) (hn : n ≤ 0) :
    chunk_markdown markdown pm n
      = if get_sections markdown = [] then Except.ok []
        else if n = 0 then Except.error "ValueError: range() arg 3 must not be zero"
        else Except.error "UnboundLocalError: chunk_meta referenced before assignment" := by
  cases hsec : get_sections markdown with
  | nil =>
    rw [if_pos rfl]
    simp only [chunk_markdown, hsec]
    rfl
  | cons s rest =>
    rw [if_neg (by simp)]
    simp only [chunk_markdown, hsec, foldlM_cons_except]
    by_cases hn0 : n = 0
    · subst hn0
      rw [if_pos rfl, recursive_chunk_zero]
      rfl
    · rw [if_neg hn0, recursive_chunk_neg _ _ n (by omega)]
      rfl

/-- Witness for claim C4 at a one-heading text with window zero: the
pipeline propagates the `range` error. -/
theorem chunk_markdown_nonpositive_window_witness :
    (0 : Int) ≤ 0
    ∧ chunk_markdown "# A\nb".data [] 0
        = Except.error "ValueError: range() arg 3 must not be zero" := by
  refine ⟨by decide, ?_⟩
  rw [chunk_markdown_nonpositive_window "# A\nb".data [] 0 (by decide)]
  decide

/-- Claim C5: for a markdown text with at least one heading, the sections
are strictly increasing and contiguous, the last one ends at the document
length, and together they cover exactly the range from the first heading
offset to the document length. -/
theorem get_sections_partition (markdown : Str) (_h : get_sections markdown ≠ []) :
    List.Chain' (fun a b : SectionRec => a.start_idx < b.start_idx ∧ a.end_idx = b.start_idx)
        (get_sections markdown)
    ∧ (∀ s, (get_sections markdown).getLast? = some s → s.end_idx = markdown.length)
    ∧ (∀ s0, (get_sections markdown).head? = some s0 →
        ∀ k, (s0.start_idx ≤ k ∧ k < markdown.length)
          ↔ ∃ s ∈ get_sections markdown, s.start_idx ≤ k ∧ k < s.end_idx) :=
  sections_partition_of_scan markdown

/-- Witness for claim C5 at a one-heading document. -/
theorem get_sections_partition_witness :
    get_sections "# A\nb".data ≠ []
    ∧ (List.Chain' (fun a b : SectionRec => a.start_idx < b.start_idx ∧ a.end_idx = b.start_idx)
          (get_sections "# A\nb".data)
       ∧ (∀ s, (get_sections "# A\nb".data).getLast? = some s → s.end_idx = "# A\nb".data.length)
       ∧ (∀ s0, (get_sections "# A\nb".data).head? = some s0 →
           ∀ k, (s0.start_idx ≤ k ∧ k < "# A\nb".data.length)
             ↔ ∃ s ∈ get_sections "# A\nb".data, s.start_idx ≤ k ∧ k < s.end_idx)) :=
  ⟨by decide, get_sections_partition "# A\nb".data (by decide)⟩

/-- Claim C6: `find_page_for_index` returns the `page_num` of the first
range in list order whose half-open interval contains the offset, and
`none` when no range contains it; on the Scenario B page map the boundary
offset ten belongs to the second page and offset twenty-five to none. -/
theorem find_page_for_index_first_containing :
    (∀ (pages : List PageRec) (idx : Nat),
        find_page_for_index pages idx
          = (pages.find? (fun p => decide (p.start_idx ≤ idx ∧ idx < p.end_idx))).bind
              (fun p => p.page_num))
    ∧ find_page_for_index (get_page_ranges scenarioB_page_map) 9 = some 1
    ∧ find_page_for_index (get_page_ranges scenarioB_page_map) 10 = some 2
    ∧ find_page_for_index (get_page_ranges scenarioB_page_map) 25 = none := by
  refine ⟨?_, by decide, by decide, by decide⟩
  intro pages idx
  induction pages with
  | nil => rfl
  | cons p ps ih =>
    by_cases h : p.start_idx ≤ idx ∧ idx < p.end_idx
    · rw [find_page_for_index, if_pos h, List.find?_cons_of_pos _ (by simpa using h)]
      rfl
    · rw [find_page_for_index, if_neg h, List.find?_cons_of_neg _ (by simpa using h), ih]

/-- Claim C7 counterexample: on Scenario A with window two the pipeline
does not emit the three claimed chunk contents. -/
theorem chunk_markdown_scenarioA_not_three_chunks :
    (chunk_markdown scenarioA_markdown [] 2).map (fun l => l.map (fun c => c.content))
      ≠ Except.ok ["foo bar".data, "baz".data, "qux".data] := by decide

/-- Claim C7 as amended: on Scenario A with window two the pipeline emits
exactly two chunks, one per section, each holding the final window of its
token stream of its section (heading tokens included). -/
theorem chunk_markdown_scenarioA_eval :
    chunk_markdown scenarioA_markdown [] 2 = Except.ok
      [{ content := "baz".data,
         meta := { section_heading := "H1".data, section_level := 1, page_num := none,
                   section_start_idx := 0, section_end_idx := 17,
                   chunk_start_token := 4, chunk_end_token := 5 } },
       { content := "qux".data,
         meta := { section_heading := "H2".data, section_level := 1, page_num := none,
                   section_start_idx := 17, section_end_idx := 25,
                   chunk_start_token := 2, chunk_end_token := 3 } }] := by decide

/-- Claim C8: building page ranges never fails; it maps each entry in
order to a record carrying its offsets and the searched page number, and
the search yields `none` exactly when no position of the tag text matches
the page pattern. -/
theorem get_page_ranges_never_fails :
    ∀ (pm : List PageMapEntry),
      get_page_ranges pm
        = pm.map (fun e => { page_num := searchPage e.comment_tag_text,
                             start_idx := e.start_idx, end_idx := e.end_idx })
      ∧ ∀ cs : Str, (searchPage cs = none ↔ ∀ k, matchPageAt (cs.drop k) = none) := by
  intro pm
  refine ⟨?_, searchPage_none_iff⟩
  exact (foldl_append_singleton
    (fun e : PageMapEntry =>
      ({ page_num := searchPage e.comment_tag_text,
         start_idx := e.start_idx, end_idx := e.end_idx } : PageRec)) pm []).trans
    (List.nil_append _)

/-- Claim C9: the pipeline is a pure function of its inputs; equal inputs
give equal outputs. -/
theorem chunk_markdown_deterministic (md1 md2 : Str) (pm1 pm2 : List PageMapEntry)
    (n1 n2 : Int) (h1 : md1 = md2) (h2 : pm1 = pm2) (h3 : n1 = n2) :
    chunk_markdown md1 pm1 n1 = chunk_markdown md2 pm2 n2 := by
  rw [h1, h2, h3]

/-- Witness for claim C9: two runs on the Scenario A inputs agree. -/
theorem chunk_markdown_deterministic_witness :
    scenarioA_markdown = scenarioA_markdown
    ∧ chunk_markdown scenarioA_markdown [] 2 = chunk_markdown scenarioA_markdown [] 2 :=
  ⟨rfl, chunk_markdown_deterministic scenarioA_markdown scenarioA_markdown [] [] 2 2
    rfl rfl rfl⟩

/-- Claim C10: the splitter receives the raw markdown slice of each
section, starting at the heading marker, so the heading tokens are part
of the counted token stream; but in the literal source the emitted chunk
content is the final window only, so on Scenario A no emitted content
holds the heading tokens. -/
theorem heading_tokens_counted_not_emitted :
    get_sections scenarioA_markdown
      = [{ level := 1, heading := "H1".data, start_idx := 0, end_idx := 17 },
         { level := 1, heading := "H2".data, start_idx := 17, end_idx := 25 }]
    ∧ pySlice scenarioA_markdown 0 17 = "# H1\nfoo bar baz\n".data
    ∧ pySplit (pySlice scenarioA_markdown 0 17)
        = ["#".data, "H1".data, "foo".data, "bar".data, "baz".data]
    ∧ (chunk_markdown scenarioA_markdown [] 2).map (fun l => l.map (fun c => c.content))
      = Except.ok ["baz".data, "qux".data] := by decide
